import Mathlib

set_option maxRecDepth 8000

namespace Gorgonia

/-!
Shallow embedding of the gorgonia `tensor` package's masked-inspection engine.

The definitions below are translated from `src/tensor/dense_mask_inspection.go`
and `src/tensor/dense.go`.  The access-pattern, slicing and iterator machinery
that those files call into (`AP`, `Slice`, `FlatIterator`, `MultIterator`,
`IsVector`, `IsScalar`, `SetAt`) is not part of the provided sources; those
pieces are modelled from the specification (see the doc comment on each such
definition) and checked against the behaviour pinned down by the repository's
own test file `src/tensor/dense_mask_inspection_test.go`.
-/

/-- Offset of a logical coordinate under a stride vector: `Σ c[i]*strides[i]`
(spec §3, offset computation). -/
def offsetOf : List Nat → List Nat → Nat
  | st :: sts, c :: cs => st * c + offsetOf sts cs
  | _, _ => 0

/-- Row-major (canonical) strides of a shape, as `calcStrides` produces for a
freshly constructed tensor. -/
def rowMajorStrides : List Nat → List Nat
  | [] => []
  | _ :: rest => rest.prod :: rowMajorStrides rest

/-- Modelled from the spec: the `FlatIterator` (§4.3) "produces a lazy, finite
sequence of logical coordinates in row-major order, one per call to advance".
We model the whole traversal as the list of coordinates it yields. -/
def rowMajorCoords : List Nat → List (List Nat)
  | [] => [[]]
  | d :: rest => (List.range d).flatMap (fun i => (rowMajorCoords rest).map (i :: ·))

/-- The `*Dense` tensor of `src/tensor/dense.go`, restricted to the fields the
claims exercise: the access pattern (shape, data strides, mask strides), the
view's window into the shared data and mask buffers, and the view flag
(`viewOf != nil`).  A Go view re-headers the shared buffers at its start
offset, which we model by `List.drop`. -/
structure Dense (α : Type) where
  shape : List Nat
  strides : List Nat
  data : List α
  maskStrides : List Nat
  mask : List Bool
  isView : Bool
deriving DecidableEq, Repr

/-- `Dims` returns the rank. -/
def Dense.Dims (t : Dense α) : Nat := t.shape.length

/-- `Size` is the element count from the shape (spec §4.2). -/
def Dense.Size (t : Dense α) : Nat := t.shape.prod

/-- `MaskSize` is the length of the (view's) mask buffer. -/
def Dense.MaskSize (t : Dense α) : Nat := t.mask.length

/-- Modelled from the spec (§4.2): `isMasked` is "true iff a mask buffer is
present and has length ≥ 1". -/
def Dense.IsMasked (t : Dense α) : Bool := decide (0 < t.mask.length)

/-- Modelled from the spec: `IsVector`.  Spec §4.5 calls this the rank-1 case,
but the repository's test `TestMaskedInspection` applies `MaskedAny(0)` to a
shape `(1,12)` tensor and type-asserts the result to `bool`, so rank-2 row and
column vectors must also take the scalar path, matching the upstream
`AP.IsVector` (rank 1, or rank 2 with a singleton dimension). -/
def Dense.IsVector (t : Dense α) : Bool :=
  t.shape.length == 1 ||
    (t.shape.length == 2 && (t.shape.getD 0 0 == 1 || t.shape.getD 1 0 == 1))

/-- Modelled from the spec: `IsScalar` — a rank-0 access pattern (used by
`sanity` in `src/tensor/dense.go`). -/
def Dense.IsScalar (t : Dense α) : Bool := t.shape.isEmpty

/-- Element of the tensor at a logical coordinate: the data buffer entry at the
stride offset of the coordinate. -/
def Dense.getAt [Inhabited α] (t : Dense α) (c : List Nat) : α :=
  t.data.getD (offsetOf t.strides c) default

/-- Mask state of the element at a logical coordinate: the mask buffer entry at
the mask-stride offset (spec §3).  An absent mask means nothing is masked. -/
def Dense.maskAt (t : Dense α) (c : List Nat) : Bool :=
  t.mask.getD (offsetOf t.maskStrides c) false

/-- A slice descriptor per dimension: `none` is "whole dimension", and
`some (a, b)` is the half-open range `[a, b)` (step 1), as `makeRS` builds
(spec §3, slice descriptor). -/
abbrev SliceSpec := List (Option (Nat × Nat))

/-- Modelled from the spec (§4.1 `sliceInto`): processes the slice descriptors
dimension-wise; strides are unchanged, an explicitly sliced dimension's extent
shrinks to the range length and the base offsets (data and mask) advance by
`start * stride`.  An explicitly sliced dimension whose resulting length is at
most 1 is dropped from the result — required by §4.5 step 3 ("build the output
shape by removing the reduction axis") together with the output shapes the
repository test asserts, e.g. slicing shape `(2,3,2)` with `(rs(0,0),nil,nil)`
yields shape `(3,2)`.  A `nil` (whole-dimension) descriptor keeps its
dimension.  Returns the surviving `(extent, stride, maskStride)` triples,
the data `(start, trailing-trim)` pair and the mask `(start, trailing-trim)`
pair: a view windows each shared buffer as `buf[start : len-trim]`, the
trailing trim accumulating `(extent - rangeEnd) * stride` per sliced
dimension (the `ndEnd` computation of the access-pattern slicer). -/
def sliceDims : SliceSpec → List Nat → List Nat → List Nat →
    List (Nat × Nat × Nat) × (Nat × Nat) × (Nat × Nat)
  | _, [], _, _ => ([], (0, 0), (0, 0))
  | sl, d :: ds, sts, mss =>
    let s := sl.headD none
    let st := sts.headD 0
    let ms := mss.headD 0
    let r := sliceDims sl.tail ds sts.tail mss.tail
    match s with
    | none => ((d, st, ms) :: r.1, r.2)
    | some (a, b) =>
      let acc := ((a * st + r.2.1.1, (d - b) * st + r.2.1.2),
                  (a * ms + r.2.2.1, (d - b) * ms + r.2.2.2))
      if b - a ≤ 1 then (r.1, acc)
      else ((b - a, st, ms) :: r.1, acc)

/-- The window `buf[start : len-trim]` a view holds into a shared buffer. -/
def window (buf : List γ) (start trim : Nat) : List γ :=
  (buf.take (buf.length - trim)).drop start

/-- Modelled from the spec (§4.2 `slice`): returns a view sharing the data and
mask buffers, windowed at the computed start/end offsets, with the derived
access pattern from `sliceDims`. -/
def Dense.Slice (t : Dense α) (sl : SliceSpec) : Dense α :=
  let r := sliceDims sl t.shape t.strides t.maskStrides
  { shape := r.1.map (·.1)
    strides := r.1.map (·.2.1)
    data := window t.data r.2.1.1 r.2.1.2
    maskStrides := r.1.map (·.2.2)
    mask := window t.mask r.2.2.1 r.2.2.2
    isView := true }

/-- Modelled from the spec (§6 allocator): `NewDense` supplies a fresh non-view
tensor of the given shape with canonical row-major strides, a zero-initialised
data buffer of `shape.prod` elements, and no mask. -/
def NewDense (β : Type) [Inhabited β] (shape : List Nat) : Dense β :=
  { shape := shape
    strides := rowMajorStrides shape
    data := List.replicate shape.prod default
    maskStrides := []
    mask := []
    isView := false }

/-- `SetAt` writes a value at a logical coordinate (the data buffer entry at
the stride offset). -/
def Dense.SetAt (t : Dense β) (v : β) (c : List Nat) : Dense β :=
  { t with data := t.data.set (offsetOf t.strides c) v }

/-- The probe slice descriptor `MaskedReduce` builds to compute the output
shape: `makeRS(0,0)` on the reduction axis, `nil` everywhere else
(`src/tensor/dense_mask_inspection.go` lines 20–24). -/
def probeSlices : List Nat → Nat → SliceSpec
  | [], _ => []
  | _ :: rest, 0 => some (0, 0) :: List.replicate rest.length none
  | _ :: rest, ax + 1 => none :: probeSlices rest ax

/-- Single-index descriptors `makeRS(c_k, c_k+1)` for a list of coordinates. -/
def singleSlices (coord : List Nat) : SliceSpec :=
  coord.map (fun c => some (c, c + 1))

/-- The per-output-coordinate slice descriptor `MaskedReduce` builds inside its
loop: `nil` (whole dimension) on the reduction axis, `makeRS(c_k, c_k+1)` on
every other axis, with `k` advancing over the output coordinate
(`src/tensor/dense_mask_inspection.go` lines 31–42). -/
def coordSlices : List Nat → Nat → List Nat → SliceSpec
  | [], _, _ => []
  | _ :: rest, 0, coord => none :: singleSlices coord
  | _ :: rest, ax + 1, coord =>
    some (coord.headD 0, coord.headD 0 + 1) :: coordSlices rest ax coord.tail

/-- The `interface{}` result of `MaskedReduce`: a scalar from evaluating the
reduction once, the sentinel `-1`, an axis-wise output tensor, or a Go runtime
crash (indexing `slices[ax]` with a negative `ax` panics). -/
inductive MRes (β : Type) where
  | scalar : β → MRes β
  | neg1 : MRes β
  | arr : Dense β → MRes β
  | crash : MRes β
deriving DecidableEq, Repr

/-- `MaskedReduce` from `src/tensor/dense_mask_inspection.go` lines 11–49:
if no axis is given or the tensor is a vector, evaluate the reduction once
over the whole tensor; else take `ax := axis[0]`, return `-1` when
`ax >= t.Dims()`; a negative `ax` reaches `slices[ax] = ...` and crashes;
otherwise probe-slice to obtain the output shape, allocate the output, and
for every output coordinate (FlatIterator order) slice the input with the
whole reduction axis and single indices elsewhere, applying `fn` to the
sub-tensor and writing the result at that coordinate. -/
def MaskedReduce [Inhabited β] (t : Dense α) (fn : Dense α → β)
    (axis : List Int) : MRes β :=
  match axis with
  | [] => .scalar (fn t)
  | ax :: _ =>
    if t.IsVector then .scalar (fn t)
    else if (t.Dims : Int) ≤ ax then .neg1
    else if ax < 0 then .crash
    else
      let axn := ax.toNat
      let ts := t.Slice (probeSlices t.shape axn)
      let retVal := NewDense β ts.shape
      .arr ((rowMajorCoords ts.shape).foldl
        (fun acc c => acc.SetAt (fn (t.Slice (coordSlices t.shape axn c))) c)
        retVal)

/-- `doMaskAll` (`src/tensor/dense_mask_inspection.go` lines 81–111): false on
an unmasked tensor; on a contiguous mask (`MaskSize == Size`) scan the whole
mask buffer; otherwise walk every logical coordinate with a MultIterator and
check its mask entry. -/
def doMaskAll (t : Dense α) : Bool :=
  if !t.IsMasked then false
  else if t.MaskSize == t.Size then t.mask.all id
  else (rowMajorCoords t.shape).all (fun c => t.maskAt c)

/-- `doMaskAny` (lines 113–144): false on an unmasked tensor; contiguous mask:
scan the buffer for a true entry; otherwise seek a masked coordinate with
`NextInvalid`. -/
def doMaskAny (t : Dense α) : Bool :=
  if !t.IsMasked then false
  else if t.MaskSize == t.Size then t.mask.any id
  else (rowMajorCoords t.shape).any (fun c => t.maskAt c)

/-- `doMaskCt` (lines 146–175): 0 on an unmasked tensor; contiguous mask:
count the true entries of the buffer; otherwise count the `NextInvalid`
coordinates. -/
def doMaskCt (t : Dense α) : Nat :=
  if !t.IsMasked then 0
  else if t.MaskSize == t.Size then t.mask.countP id
  else (rowMajorCoords t.shape).countP (fun c => t.maskAt c)

/-- `doNonMaskCt` (lines 177–187): `Size` on an unmasked tensor, else
`Size - doMaskCt`. -/
def doNonMaskCt (t : Dense α) : Nat :=
  if !t.IsMasked then t.Size else t.Size - doMaskCt t

/-- `MaskedAny` (lines 55–57). -/
def Dense.MaskedAny (t : Dense α) (axis : List Int) : MRes Bool :=
  MaskedReduce t doMaskAny axis

/-- `MaskedAll` (lines 63–65). -/
def Dense.MaskedAll (t : Dense α) (axis : List Int) : MRes Bool :=
  MaskedReduce t doMaskAll axis

/-- `MaskedCount` (lines 69–71). -/
def Dense.MaskedCount (t : Dense α) (axis : List Int) : MRes Nat :=
  MaskedReduce t doMaskCt axis

/-- `NonMaskedCount` (lines 77–79). -/
def Dense.NonMaskedCount (t : Dense α) (axis : List Int) : MRes Nat :=
  MaskedReduce t doNonMaskCt axis

/-- Modelled from the spec (§4.4): the validity of each element of the
flattened tensor, in the order a forward MultIterator walks it — `true` for a
valid (unmasked) element, `false` for a masked one.  An absent mask buffer
makes every element valid. -/
def valsOf (t : Dense α) : List Bool :=
  (rowMajorCoords t.shape).map (fun c => !(t.maskAt c))

/-- Modelled from the spec (§4.4 `nextValid`/`nextInvalid`): from a cursor, the
flat index of the first element whose validity equals the target, or `none`
(the `-1` sentinel with an `Exhausted` error) when no such element remains.
`l` is the remaining suffix of the validity list and `i` the flat index of its
head. -/
def nextFromAux : List Bool → Bool → Nat → Option Nat
  | [], _, _ => none
  | b :: r, tgt, i => if b == tgt then some i else nextFromAux r tgt (i + 1)

/-- The alternating loop shared by `FlatNotMaskedContiguous` and
`FlatMaskedContiguous` (`src/tensor/dense_mask_inspection.go` lines 196–243):
one iterator is advanced by a target-validity seek (`start`) and then an
opposite-validity seek (`end`); when both fail the loop breaks, when only the
second fails the end is clamped to the total size and the loop exits after
appending.  The cursor after a successful seek at `s` sits at `s + 1`.
`fuel` bounds the iteration count (each pass consumes at least two
elements). -/
def contigAux : Nat → Bool → Nat → List Bool → Nat → List (Nat × Nat)
  | 0, _, _, _, _ => []
  | fuel + 1, tgt, total, l, i =>
    match nextFromAux l tgt i with
    | none => []
    | some s =>
      match nextFromAux (l.drop (s + 1 - i)) (!tgt) (s + 1) with
      | none => [(s, total)]
      | some e => (s, e) :: contigAux fuel tgt total (l.drop (e + 1 - i)) (e + 1)

/-- `FlatNotMaskedContiguous` (lines 196–217): the sorted sequence of
half-open `(start, end)` ranges of contiguous unmasked data in the flattened
tensor. -/
def Dense.FlatNotMaskedContiguous (t : Dense α) : List (Nat × Nat) :=
  contigAux ((valsOf t).length + 1) true t.Size (valsOf t) 0

/-- `FlatMaskedContiguous` (lines 222–243): the sorted sequence of half-open
`(start, end)` ranges of contiguous masked data in the flattened tensor. -/
def Dense.FlatMaskedContiguous (t : Dense α) : List (Nat × Nat) :=
  contigAux ((valsOf t).length + 1) false t.Size (valsOf t) 0

/-- `ClumpMasked` (lines 287–289). -/
def Dense.ClumpMasked (t : Dense α) : List (Nat × Nat) :=
  t.FlatMaskedContiguous

/-- `ClumpUnmasked` (lines 293–295). -/
def Dense.ClumpUnmasked (t : Dense α) : List (Nat × Nat) :=
  t.FlatNotMaskedContiguous

/-- A fresh forward MultIterator's first seek for the target validity, as an
`int` with the `-1` exhaustion sentinel. -/
def fwdIdx (vals : List Bool) (tgt : Bool) : Int :=
  match nextFromAux vals tgt 0 with
  | some i => (i : Int)
  | none => -1

/-- Modelled from the spec (§4.4 `setReverse`): a reverse-direction
MultIterator starts from the end and decrements, so its first seek for the
target validity yields the greatest flat index carrying it (`-1` when none
does). -/
def revIdx (vals : List Bool) (tgt : Bool) : Int :=
  match nextFromAux vals.reverse tgt 0 with
  | some k => (vals.length : Int) - 1 - (k : Int)
  | none => -1

/-- `FlatNotMaskedEdges` (lines 248–263): `(0, Size-1)` for an unmasked
tensor, else the first valid index under a forward iterator and the first
valid index under a reverse iterator. -/
def Dense.FlatNotMaskedEdges (t : Dense α) : Int × Int :=
  if !t.IsMasked then (0, (t.Size : Int) - 1)
  else (fwdIdx (valsOf t) true, revIdx (valsOf t) true)

/-- `FlatMaskedEdges` (lines 268–283): `(0, Size-1)` for an unmasked tensor,
else the first and last masked indices. -/
def Dense.FlatMaskedEdges (t : Dense α) : Int × Int :=
  if !t.IsMasked then (0, (t.Size : Int) - 1)
  else (fwdIdx (valsOf t) false, revIdx (valsOf t) false)

/-- The structural error values of `src/tensor/dense.go`:
`errors.Errorf(methodNYI, "Reshape", "views")` (the `UnsupportedOnView`
condition of spec §7) and `errors.Errorf(shapeMismatch, ...)` from
`sanity`. -/
inductive ReshapeError where
  | unsupportedOnView : ReshapeError
  | shapeMismatch : ReshapeError
deriving DecidableEq, Repr

/-- `sanity` (`src/tensor/dense.go` lines 258–270): a non-view, non-scalar
tensor whose data length differs from the shape's element count fails the
check.  (The function's first clause, a nil shape together with nil data, is
unreachable after `setShape` assigns a non-nil shape, so it is not part of
the model; `IsScalar` is modelled from the spec as rank 0.) -/
def Dense.sanity (t : Dense α) : Option ReshapeError :=
  if !t.isView && t.data.length != t.Size && !t.IsScalar then
    some .shapeMismatch
  else none

/-- `reshape` (`src/tensor/dense.go` lines 137–140): reassign the shape (with
the canonical strides `SetShape` recomputes) and then run `sanity`, returning
its verdict alongside the mutated tensor. -/
def Dense.reshape (t : Dense α) (dims : List Nat) :
    Option ReshapeError × Dense α :=
  let t2 := { t with shape := dims, strides := rowMajorStrides dims }
  (t2.sanity, t2)

/-- `Reshape` (`src/tensor/dense.go` lines 125–135): fails immediately on a
view (leaving the tensor untouched), otherwise reassigns the shape and
sanity-checks.  (The transpose-backup materialization step concerns only the
data layout, not the resulting shape or error, and is outside this model.) -/
def Dense.Reshape (t : Dense α) (dims : List Nat) :
    Option ReshapeError × Dense α :=
  if t.isView then (some .unsupportedOnView, t) else t.reshape dims

/-- State-threaded `Slice`: the Go `Slice` constructs a fresh view from the
receiver's fields; the pair carries the view and the receiver as the call
leaves it. -/
def Dense.SliceS (t : Dense α) (sl : SliceSpec) : Dense α × Dense α :=
  (t.Slice sl, t)

/-- State-threaded `MaskedReduce`: every operation the Go code performs on the
receiver (`IsVector`, `Dims`, the probe `Slice`, each per-coordinate `Slice`)
is threaded through the pair's second component; the only write, `SetAt`,
targets the freshly allocated output.  The second component is the receiver
as the call returns. -/
def MaskedReduceS [Inhabited β] (t : Dense α) (fn : Dense α → β)
    (axis : List Int) : MRes β × Dense α :=
  match axis with
  | [] => (.scalar (fn t), t)
  | ax :: _ =>
    if t.IsVector then (.scalar (fn t), t)
    else if (t.Dims : Int) ≤ ax then (.neg1, t)
    else if ax < 0 then (.crash, t)
    else
      let axn := ax.toNat
      let pr := t.SliceS (probeSlices t.shape axn)
      let r := (rowMajorCoords pr.1.shape).foldl
        (fun (acc : Dense β × Dense α) c =>
          let sb := acc.2.SliceS (coordSlices acc.2.shape axn c)
          (acc.1.SetAt (fn sb.1) c, sb.2))
        (NewDense β pr.1.shape, pr.2)
      (.arr r.1, r.2)

/-- State-threaded `MaskedAny`. -/
def Dense.MaskedAnyS (t : Dense α) (axis : List Int) : MRes Bool × Dense α :=
  MaskedReduceS t doMaskAny axis

/-- State-threaded `MaskedAll`. -/
def Dense.MaskedAllS (t : Dense α) (axis : List Int) : MRes Bool × Dense α :=
  MaskedReduceS t doMaskAll axis

/-- State-threaded `MaskedCount`. -/
def Dense.MaskedCountS (t : Dense α) (axis : List Int) : MRes Nat × Dense α :=
  MaskedReduceS t doMaskCt axis

/-- State-threaded `NonMaskedCount`. -/
def Dense.NonMaskedCountS (t : Dense α) (axis : List Int) :
    MRes Nat × Dense α :=
  MaskedReduceS t doNonMaskCt axis

/-- State-threaded `FlatNotMaskedContiguous`: the Go function only reads the
receiver through iterators. -/
def Dense.FlatNotMaskedContiguousS (t : Dense α) :
    List (Nat × Nat) × Dense α :=
  (t.FlatNotMaskedContiguous, t)

/-- State-threaded `FlatMaskedContiguous`. -/
def Dense.FlatMaskedContiguousS (t : Dense α) : List (Nat × Nat) × Dense α :=
  (t.FlatMaskedContiguous, t)

/-- State-threaded `FlatNotMaskedEdges`. -/
def Dense.FlatNotMaskedEdgesS (t : Dense α) : (Int × Int) × Dense α :=
  (t.FlatNotMaskedEdges, t)

/-- State-threaded `FlatMaskedEdges`. -/
def Dense.FlatMaskedEdgesS (t : Dense α) : (Int × Int) × Dense α :=
  (t.FlatMaskedEdges, t)

/-- The output tensor the axis-wise path of `MaskedReduce` constructs. -/
def mrOut [Inhabited β] (t : Dense α) (fn : Dense α → β) (axn : Nat) : Dense β :=
  (rowMajorCoords (t.shape.eraseIdx axn)).foldl
    (fun acc c => acc.SetAt (fn (t.Slice (coordSlices t.shape axn c))) c)
    (NewDense β (t.shape.eraseIdx axn))

/-- Spec-side definition, following §4.6 / §8 of the spec: the sorted list of
half-open `(start, end)` ranges of the maximal runs of the target validity in
a flat validity list, scanning left to right while carrying the start of the
currently open run. -/
def maximalRunsAux : List Bool → Bool → Nat → Option Nat → List (Nat × Nat)
  | [], _, _, none => []
  | [], _, i, some s => [(s, i)]
  | b :: r, tgt, i, none =>
    if b == tgt then maximalRunsAux r tgt (i + 1) (some i)
    else maximalRunsAux r tgt (i + 1) none
  | b :: r, tgt, i, some s =>
    if b == tgt then maximalRunsAux r tgt (i + 1) (some s)
    else (s, i) :: maximalRunsAux r tgt (i + 1) none

/-- Spec-side: the maximal runs of the target validity over a flat validity
list. -/
def maximalRuns (l : List Bool) (tgt : Bool) : List (Nat × Nat) :=
  maximalRunsAux l tgt 0 none

/-- Well-formedness of a range list: each range is nonempty (`start < end`)
and consecutive ranges are ordered and non-overlapping (`end ≤ next start`). -/
def RangesOK : List (Nat × Nat) → Prop
  | [] => True
  | [p] => p.1 < p.2
  | p :: q :: rest => p.1 < p.2 ∧ p.2 ≤ q.1 ∧ RangesOK (q :: rest)

/-- Greatest index holding the target value, scanning from the left. -/
def lastOcc : List Bool → Bool → Option Nat
  | [], _ => none
  | b :: r, tgt =>
    match lastOcc r tgt with
    | some k => some (k + 1)
    | none => if b == tgt then some 0 else none

/-- The `(1,12)` row-vector tensor of `TestMaskedInspection` with every even
flat index masked. -/
def exVec : Dense Bool :=
  { shape := [1, 12], strides := [12, 1], data := List.replicate 12 false,
    maskStrides := [12, 1],
    mask := [true, false, true, false, true, false, true, false, true, false,
      true, false],
    isView := false }

/-- A `(1,12)` row-vector tensor with every element masked. -/
def exVecFull : Dense Bool :=
  { shape := [1, 12], strides := [12, 1], data := List.replicate 12 false,
    maskStrides := [12, 1], mask := List.replicate 12 true, isView := false }

/-- An unmasked `(2,2)` tensor (not a vector). -/
def exSquare : Dense Bool :=
  { shape := [2, 2], strides := [2, 1], data := List.replicate 4 false,
    maskStrides := [], mask := [], isView := false }

/-- The `(2,3,2)` tensor of `TestMaskedInspection` with a full-size mask and
elements `(0,0,0)` and `(0,2,0)` masked. -/
def exContig : Dense Bool :=
  { shape := [2, 3, 2], strides := [6, 2, 1], data := List.replicate 12 false,
    maskStrides := [6, 2, 1],
    mask := [true, false, false, false, true, false, false, false, false,
      false, false, false],
    isView := false }

/-- A masked `(1,6)` tensor whose validity pattern `f t t f f t` ends in a
valid element. -/
def exRuns : Dense Bool :=
  { shape := [1, 6], strides := [6, 1], data := List.replicate 6 false,
    maskStrides := [6, 1],
    mask := [true, false, false, true, true, false], isView := false }

/-- A masked `(1,6)` tensor whose validity pattern `t f t t f f` ends in a
masked element. -/
def exRuns2 : Dense Bool :=
  { shape := [1, 6], strides := [6, 1], data := List.replicate 6 false,
    maskStrides := [6, 1],
    mask := [false, true, false, false, true, true], isView := false }

/-- An unmasked `(1,12)` tensor. -/
def exNoMask : Dense Bool :=
  { shape := [1, 12], strides := [12, 1], data := List.replicate 12 false,
    maskStrides := [], mask := [], isView := false }

/-- An unmasked non-vector `(2,0)` tensor: its second axis has length 0. -/
def exZeroAx : Dense Bool :=
  { shape := [2, 0], strides := [0, 1], data := [],
    maskStrides := [], mask := [], isView := false }

/-- A non-view rank-1 tensor with two data elements. -/
def exRe : Dense Bool :=
  { shape := [2], strides := [1], data := [false, false],
    maskStrides := [], mask := [], isView := false }

/-!
Proofs: properties of the embedding above, settling the claims about the
mask-inspection engine.
-/

theorem length_rowMajorCoords (s : List Nat) :
    (rowMajorCoords s).length = s.prod := by
  induction s with
  | nil => rfl
  | cons d rest ih =>
    rw [rowMajorCoords, List.length_flatMap]
    have h1 : (List.map (List.length ∘ fun i => List.map (fun x => i :: x) (rowMajorCoords rest))
        (List.range d)) = List.replicate d rest.prod := by
      rw [List.eq_replicate_iff]
      constructor
      · simp
      · intro b hb
        simp only [List.mem_map] at hb
        obtain ⟨i, _, hbi⟩ := hb
        simp [← hbi, ih]
    rw [h1, List.sum_replicate, smul_eq_mul, List.prod_cons, Nat.mul_comm]

theorem range_flatMap_range (d P : Nat) :
    (List.range d).flatMap (fun i => (List.range P).map (fun k => P * i + k)) =
      List.range (d * P) := by
  induction d with
  | zero => simp
  | succ n ih =>
    rw [List.range_succ, List.flatMap_append, ih, Nat.succ_mul, List.range_add]
    simp [Nat.mul_comm]

theorem offsets_enum (s : List Nat) :
    (rowMajorCoords s).map (offsetOf (rowMajorStrides s)) = List.range s.prod := by
  induction s with
  | nil => rfl
  | cons d rest ih =>
    rw [rowMajorCoords, List.map_flatMap]
    have h1 : ∀ i : Nat,
        ((rowMajorCoords rest).map (i :: ·)).map (offsetOf (rowMajorStrides (d :: rest))) =
        (List.range rest.prod).map (fun k => rest.prod * i + k) := by
      intro i
      rw [List.map_map, ← ih, List.map_map]
      rfl
    simp only [h1]
    rw [range_flatMap_range]
    simp [List.prod_cons, Nat.mul_comm]

theorem offset_lt_prod {s : List Nat} {c : List Nat}
    (hc : c ∈ rowMajorCoords s) :
    offsetOf (rowMajorStrides s) c < s.prod := by
  have : offsetOf (rowMajorStrides s) c ∈
      (rowMajorCoords s).map (offsetOf (rowMajorStrides s)) :=
    List.mem_map_of_mem _ hc
  rw [offsets_enum] at this
  exact List.mem_range.mp this

theorem offsets_nodup (s : List Nat) :
    ((rowMajorCoords s).map (offsetOf (rowMajorStrides s))).Nodup := by
  rw [offsets_enum]; exact List.nodup_range _

theorem foldl_set_length (l : List γ) (off : γ → Nat) (f : γ → β)
    (acc : List β) :
    (l.foldl (fun a c => a.set (off c) (f c)) acc).length = acc.length := by
  induction l generalizing acc with
  | nil => rfl
  | cons x xs ih => simp [List.foldl_cons, ih]

theorem foldl_set_untouched (l : List γ) (off : γ → Nat) (f : γ → β)
    (acc : List β) (j : Nat) (d : β) (hj : j ∉ l.map off) :
    (l.foldl (fun a c => a.set (off c) (f c)) acc).getD j d = acc.getD j d := by
  induction l generalizing acc with
  | nil => rfl
  | cons x xs ih =>
    simp only [List.map_cons, List.mem_cons, not_or] at hj
    rw [List.foldl_cons, ih _ hj.2]
    rcases Nat.lt_or_ge j acc.length with h | h
    · rw [List.getD_eq_getElem?_getD, List.getD_eq_getElem?_getD,
        List.getElem?_set_ne (fun hEq => hj.1 hEq.symm)]
    · rw [List.getD_eq_getElem?_getD, List.getD_eq_getElem?_getD,
        List.getElem?_eq_none (by simpa using h),
        List.getElem?_eq_none (by simpa using h)]

theorem foldl_set_hit (l : List γ) (off : γ → Nat) (f : γ → β)
    (d : β) (c : γ) :
    ∀ acc : List β, c ∈ l → (l.map off).Nodup → off c < acc.length →
    (l.foldl (fun a c => a.set (off c) (f c)) acc).getD (off c) d = f c := by
  induction l with
  | nil => intro acc hc _ _; cases hc
  | cons x xs ih =>
    intro acc hc hnd hlt
    simp only [List.map_cons, List.nodup_cons] at hnd
    rcases List.mem_cons.mp hc with rfl | hmem
    · rw [List.foldl_cons, foldl_set_untouched _ _ _ _ _ _ hnd.1,
        List.getD_eq_getElem?_getD, List.getElem?_set_self (by simpa using hlt)]
      rfl
    · rw [List.foldl_cons]
      exact ih _ hmem hnd.2 (by simpa using hlt)

theorem sliceDims_allNone_shape (ds : List Nat) :
    ∀ (n : Nat) (sts mss : List Nat),
    (sliceDims (List.replicate n none) ds sts mss).1.map (·.1) = ds := by
  induction ds with
  | nil => intro n sts mss; rfl
  | cons d rest ih =>
    intro n sts mss
    cases n with
    | zero =>
      simp only [List.replicate, sliceDims, List.headD_nil, List.tail_nil,
        List.map_cons, List.cons.injEq, true_and]
      simpa using ih 0 sts.tail mss.tail
    | succ m =>
      simp only [List.replicate_succ, sliceDims, List.headD_cons, List.tail_cons,
        List.map_cons, List.cons.injEq, true_and]
      exact ih m sts.tail mss.tail

theorem sliceDims_probe_shape (s : List Nat) :
    ∀ (axn : Nat) (sts mss : List Nat), axn < s.length →
    (sliceDims (probeSlices s axn) s sts mss).1.map (·.1) = s.eraseIdx axn := by
  induction s with
  | nil => intro axn _ _ h; cases h
  | cons d rest ih =>
    intro axn sts mss h
    cases axn with
    | zero => simp [probeSlices, sliceDims, sliceDims_allNone_shape]
    | succ m =>
      simp only [probeSlices, sliceDims, List.headD_cons, List.tail_cons,
        List.eraseIdx_cons_succ, List.map_cons]
      rw [ih m sts.tail mss.tail (by simpa using h)]

theorem sliceDims_singles_shape (ds : List Nat) :
    ∀ (coord sts mss : List Nat), coord.length = ds.length →
    (sliceDims (singleSlices coord) ds sts mss).1 = [] := by
  induction ds with
  | nil => intro coord sts mss _; rfl
  | cons d rest ih =>
    intro coord sts mss hlen
    cases coord with
    | nil => simp at hlen
    | cons c0 cs =>
      simp only [singleSlices, List.map_cons, sliceDims, List.headD_cons,
        List.tail_cons]
      have : c0 + 1 - c0 ≤ 1 := by omega
      simp only [this, if_pos]
      exact ih cs sts.tail mss.tail (by simpa using hlen)

theorem sliceDims_coord_shape (s : List Nat) :
    ∀ (axn : Nat) (coord sts mss : List Nat), axn < s.length →
    coord.length = s.length - 1 →
    (sliceDims (coordSlices s axn coord) s sts mss).1.map (·.1) =
      [s.getD axn 0] := by
  induction s with
  | nil => intro axn _ _ _ h; cases h
  | cons d rest ih =>
    intro axn coord sts mss h hlen
    cases axn with
    | zero =>
      simp only [coordSlices, sliceDims, List.headD_cons, List.tail_cons]
      rw [sliceDims_singles_shape rest coord sts.tail mss.tail (by simpa using hlen)]
      rfl
    | succ m =>
      have hr : m < rest.length := by simpa using h
      have hcl : rest.length ≥ 1 := by omega
      simp only [coordSlices, sliceDims, List.headD_cons, List.tail_cons]
      have h1 : coord.headD 0 + 1 - coord.headD 0 ≤ 1 := by omega
      simp only [h1, if_pos]
      have hcoord : coord.length = rest.length := by simpa using hlen
      rw [ih m coord.tail sts.tail mss.tail hr (by simp [List.length_tail, hcoord])]
      rfl

theorem slice_probe_shape (t : Dense α) (axn : Nat) (h : axn < t.shape.length) :
    (t.Slice (probeSlices t.shape axn)).shape = t.shape.eraseIdx axn := by
  unfold Dense.Slice
  exact sliceDims_probe_shape t.shape axn t.strides t.maskStrides h

theorem slice_coord_shape (t : Dense α) (axn : Nat) (coord : List Nat)
    (h : axn < t.shape.length) (hlen : coord.length = t.shape.length - 1) :
    (t.Slice (coordSlices t.shape axn coord)).shape = [t.shape.getD axn 0] := by
  unfold Dense.Slice
  exact sliceDims_coord_shape t.shape axn coord t.strides t.maskStrides h hlen

theorem maskedReduce_eq_arr [Inhabited β] (t : Dense α) (fn : Dense α → β)
    (ax : Int) (hnv : t.IsVector = false) (h0 : 0 ≤ ax)
    (hlt : ax < (t.Dims : Int)) :
    MaskedReduce t fn [ax] = .arr (mrOut t fn ax.toNat) := by
  have haxn : ax.toNat < t.shape.length := by
    have h1 : (ax.toNat : Int) = ax := Int.toNat_of_nonneg h0
    have : (ax.toNat : Int) < (t.Dims : Int) := by rw [h1]; exact hlt
    exact_mod_cast this
  unfold MaskedReduce
  rw [hnv]
  simp only [Bool.false_eq_true, if_false, not_le.mpr hlt, if_false,
    not_lt.mpr h0, if_false]
  rw [mrOut, slice_probe_shape t ax.toNat haxn]

theorem foldl_setAt_shape (l : List (List Nat)) (g : List Nat → β)
    (init : Dense β) :
    ∀ acc : Dense β, acc.shape = init.shape →
    (l.foldl (fun acc c => acc.SetAt (g c) c) acc).shape = init.shape := by
  induction l with
  | nil => intro acc h; exact h
  | cons x xs ih => intro acc h; exact ih _ h

theorem foldl_setAt_strides (l : List (List Nat)) (g : List Nat → β)
    (init : Dense β) :
    ∀ acc : Dense β, acc.strides = init.strides →
    (l.foldl (fun acc c => acc.SetAt (g c) c) acc).strides = init.strides := by
  induction l with
  | nil => intro acc h; exact h
  | cons x xs ih => intro acc h; exact ih _ h

theorem foldl_setAt_data (l : List (List Nat)) (g : List Nat → β)
    (sts : List Nat) :
    ∀ acc : Dense β, acc.strides = sts →
    (l.foldl (fun acc c => acc.SetAt (g c) c) acc).data =
      l.foldl (fun a c => a.set (offsetOf sts c) (g c)) acc.data := by
  induction l with
  | nil => intro acc _; rfl
  | cons x xs ih =>
    intro acc h
    simp only [List.foldl_cons]
    rw [ih (acc.SetAt (g x) x) (by simp [Dense.SetAt, h])]
    simp [Dense.SetAt, h]

theorem mrOut_shape [Inhabited β] (t : Dense α) (fn : Dense α → β) (axn : Nat) :
    (mrOut t fn axn).shape = t.shape.eraseIdx axn :=
  foldl_setAt_shape _ _ _ _ rfl

theorem mrOut_strides [Inhabited β] (t : Dense α) (fn : Dense α → β) (axn : Nat) :
    (mrOut t fn axn).strides = rowMajorStrides (t.shape.eraseIdx axn) :=
  foldl_setAt_strides _ _ _ _ rfl

theorem mrOut_getAt [Inhabited β] (t : Dense α) (fn : Dense α → β) (axn : Nat)
    (c : List Nat) (hc : c ∈ rowMajorCoords (t.shape.eraseIdx axn)) :
    (mrOut t fn axn).getAt c = fn (t.Slice (coordSlices t.shape axn c)) := by
  unfold Dense.getAt
  rw [mrOut_strides]
  rw [mrOut, foldl_setAt_data _ _ (rowMajorStrides (t.shape.eraseIdx axn)) _ rfl]
  exact foldl_set_hit (rowMajorCoords (t.shape.eraseIdx axn))
    (offsetOf (rowMajorStrides (t.shape.eraseIdx axn)))
    (fun c => fn (t.Slice (coordSlices t.shape axn c)))
    default _ _ hc (offsets_nodup _)
    (by rw [NewDense, List.length_replicate]; exact offset_lt_prod hc)

theorem doMaskCt_le_size (t : Dense α) : doMaskCt t ≤ t.Size := by
  unfold doMaskCt
  by_cases hm : t.IsMasked
  · rw [hm]
    by_cases hc : t.MaskSize == t.Size
    · simp only [Bool.not_true, Bool.false_eq_true, if_false, hc, if_true]
      calc t.mask.countP id ≤ t.mask.length := List.countP_le_length _
        _ = t.Size := Nat.le_antisymm (Nat.le_of_eq (beq_iff_eq.mp hc)) (Nat.le_of_eq (beq_iff_eq.mp hc).symm) ▸ rfl
    · simp only [Bool.not_true, Bool.false_eq_true, if_false, hc, if_false]
      calc (rowMajorCoords t.shape).countP (fun c => t.maskAt c)
          ≤ (rowMajorCoords t.shape).length := List.countP_le_length _
        _ = t.Size := length_rowMajorCoords t.shape
  · simp only [Bool.not_eq_true] at hm
    simp [hm]

theorem ct_add_nonMaskCt (t : Dense α) :
    doMaskCt t + doNonMaskCt t = t.Size := by
  unfold doNonMaskCt
  by_cases hm : t.IsMasked
  · rw [hm]
    simp only [Bool.not_true, Bool.false_eq_true, if_false]
    exact Nat.add_sub_cancel' (doMaskCt_le_size t)
  · simp only [Bool.not_eq_true] at hm
    simp [hm, doMaskCt]

theorem any_iff_ct_pos (t : Dense α) :
    doMaskAny t = true ↔ 0 < doMaskCt t := by
  unfold doMaskAny doMaskCt
  by_cases hm : t.IsMasked
  · rw [hm]
    by_cases hc : t.MaskSize == t.Size
    · simp only [Bool.not_true, Bool.false_eq_true, if_false, hc, if_true]
      rw [List.any_eq_true, List.countP_pos_iff]
    · simp only [Bool.not_true, Bool.false_eq_true, if_false, hc, if_false]
      rw [List.any_eq_true, List.countP_pos_iff]
  · simp only [Bool.not_eq_true] at hm
    simp [hm]

theorem all_iff_ct_size (t : Dense α) (h : 0 < t.Size) :
    doMaskAll t = true ↔ doMaskCt t = t.Size := by
  unfold doMaskAll doMaskCt
  by_cases hm : t.IsMasked
  · rw [hm]
    by_cases hc : t.MaskSize == t.Size
    · simp only [Bool.not_true, Bool.false_eq_true, if_false, hc, if_true]
      have hms : t.Size = t.mask.length := (beq_iff_eq.mp hc).symm
      rw [List.all_eq_true, hms, List.countP_eq_length]
    · simp only [Bool.not_true, Bool.false_eq_true, if_false, hc, if_false]
      have hl : t.Size = (rowMajorCoords t.shape).length :=
        (length_rowMajorCoords t.shape).symm
      rw [List.all_eq_true, hl, List.countP_eq_length]
  · simp only [Bool.not_eq_true] at hm
    simp [hm]
    omega

theorem nextFromAux_none {l : List Bool} {tgt : Bool} {i : Nat} :
    nextFromAux l tgt i = none ↔ ∀ x ∈ l, x ≠ tgt := by
  induction l generalizing i with
  | nil => simp [nextFromAux]
  | cons b r ih =>
    by_cases hb : b == tgt
    · simp [nextFromAux, hb, beq_iff_eq.mp hb]
    · simp only [nextFromAux, hb, Bool.false_eq_true, if_false, List.mem_cons]
      rw [ih]
      constructor
      · intro h x hx
        rcases hx with rfl | hx
        · exact fun hEq => hb (beq_iff_eq.mpr hEq)
        · exact h x hx
      · intro h x hx; exact h x (Or.inr hx)

theorem nextFromAux_some {l : List Bool} {tgt : Bool} {i s : Nat}
    (h : nextFromAux l tgt i = some s) :
    ∃ pre post, l = pre ++ tgt :: post ∧ i + pre.length = s ∧
      ∀ x ∈ pre, x ≠ tgt := by
  induction l generalizing i with
  | nil => simp [nextFromAux] at h
  | cons b r ih =>
    by_cases hb : b == tgt
    · rw [nextFromAux, if_pos hb] at h
      refine ⟨[], r, ?_, ?_, by simp⟩
      · simp [beq_iff_eq.mp hb]
      · simpa using h
    · rw [nextFromAux, if_neg hb] at h
      obtain ⟨pre, post, hl, hs, hpre⟩ := ih h
      refine ⟨b :: pre, post, by simp [hl], by simp; omega, ?_⟩
      intro x hx
      rcases List.mem_cons.mp hx with rfl | hx
      · exact fun hEq => hb (beq_iff_eq.mpr hEq)
      · exact hpre x hx

theorem runsAux_skip {pre : List Bool} {tgt : Bool}
    (hpre : ∀ x ∈ pre, x ≠ tgt) :
    ∀ (l : List Bool) (i : Nat),
    maximalRunsAux (pre ++ l) tgt i none = maximalRunsAux l tgt (i + pre.length) none := by
  induction pre with
  | nil => intro l i; simp
  | cons b r ih =>
    intro l i
    have hb : (b == tgt) = false := by
      simp only [List.mem_cons] at hpre
      exact beq_eq_false_iff_ne.mpr (hpre b (Or.inl rfl))
    simp only [List.cons_append, maximalRunsAux, hb, Bool.false_eq_true, if_false]
    rw [show r.append l = r ++ l from rfl,
      ih (fun x hx => hpre x (List.mem_cons_of_mem _ hx)) l (i + 1)]
    congr 1
    simp only [List.length_cons]
    omega

theorem runsAux_run {run : List Bool} {tgt : Bool}
    (hrun : ∀ x ∈ run, x = tgt) :
    ∀ (l : List Bool) (i s : Nat),
    maximalRunsAux (run ++ l) tgt i (some s) =
      maximalRunsAux l tgt (i + run.length) (some s) := by
  induction run with
  | nil => intro l i s; simp
  | cons b r ih =>
    intro l i s
    have hb : (b == tgt) = true := by
      simp only [List.mem_cons] at hrun
      exact beq_iff_eq.mpr (hrun b (Or.inl rfl))
    simp only [List.cons_append, maximalRunsAux, hb, if_true]
    rw [show r.append l = r ++ l from rfl,
      ih (fun x hx => hrun x (List.mem_cons_of_mem _ hx)) l (i + 1) s]
    congr 1
    simp only [List.length_cons]
    omega

theorem runsAux_all_miss {l : List Bool} {tgt : Bool}
    (h : ∀ x ∈ l, x ≠ tgt) : ∀ i : Nat, maximalRunsAux l tgt i none = [] := by
  induction l with
  | nil => intro i; rfl
  | cons b r ih =>
    intro i
    have hb : (b == tgt) = false := by
      simp only [List.mem_cons] at h
      exact beq_eq_false_iff_ne.mpr (h b (Or.inl rfl))
    simp only [maximalRunsAux, hb, Bool.false_eq_true, if_false]
    exact ih (fun x hx => h x (List.mem_cons_of_mem _ hx)) (i + 1)

theorem runsAux_all_hit {run : List Bool} {tgt : Bool}
    (hrun : ∀ x ∈ run, x = tgt) :
    ∀ i s : Nat, maximalRunsAux run tgt i (some s) = [(s, i + run.length)] := by
  intro i s
  have := runsAux_run hrun [] i s
  simpa using this

theorem drop_pre_cons (pre post : List Bool) (b : Bool) :
    (pre ++ b :: post).drop (pre.length + 1) = post := by
  have h : pre ++ b :: post = (pre ++ [b]) ++ post := by simp
  rw [h]
  have h2 : pre.length + 1 = (pre ++ [b]).length := by simp
  rw [h2, List.drop_left]

theorem bool_ne_not_eq (x tgt : Bool) (h : x ≠ !tgt) : x = tgt := by
  cases x <;> cases tgt <;> simp_all

theorem bool_ne_eq_not (x tgt : Bool) (h : x ≠ tgt) : x = !tgt := by
  cases x <;> cases tgt <;> simp_all

theorem contigAux_eq_runs :
    ∀ (n : Nat) (l : List Bool) (tgt : Bool) (total i : Nat),
    l.length < n → i + l.length = total →
    contigAux n tgt total l i = maximalRunsAux l tgt i none := by
  intro n
  induction n with
  | zero => intro l tgt total i h _; omega
  | succ fuel ih =>
    intro l tgt total i hlen htot
    rw [contigAux]
    cases hnv : nextFromAux l tgt i with
    | none =>
      exact (runsAux_all_miss (nextFromAux_none.mp hnv) i).symm
    | some s =>
      obtain ⟨pre, post, rfl, hs, hpre⟩ := nextFromAux_some hnv
      rw [runsAux_skip hpre, hs]
      dsimp only
      have hdrop1 : (pre ++ tgt :: post).drop (s + 1 - i) = post := by
        have : s + 1 - i = pre.length + 1 := by omega
        rw [this, drop_pre_cons]
      rw [hdrop1]
      simp only [maximalRunsAux, beq_self_eq_true, if_true]
      cases hni : nextFromAux post (!tgt) (s + 1) with
      | none =>
        have hall : ∀ x ∈ post, x = tgt :=
          fun x hx => bool_ne_not_eq x tgt (nextFromAux_none.mp hni x hx)
        rw [runsAux_all_hit hall (s + 1) s]
        have : total = s + 1 + post.length := by
          simp only [List.length_append, List.length_cons] at htot
          omega
        rw [this]
      | some e =>
        obtain ⟨pre2, post2, rfl, he, hpre2⟩ := nextFromAux_some hni
        have hall2 : ∀ x ∈ pre2, x = tgt :=
          fun x hx => bool_ne_not_eq x tgt (hpre2 x hx)
        rw [runsAux_run hall2, he]
        simp only [maximalRunsAux, Bool.not_beq_self, Bool.false_eq_true, if_false]
        have hdrop2 : (pre ++ tgt :: (pre2 ++ (!tgt) :: post2)).drop (e + 1 - i) = post2 := by
          have h1 : pre ++ tgt :: (pre2 ++ (!tgt) :: post2) =
              (pre ++ tgt :: pre2) ++ (!tgt) :: post2 := by simp
          have h2 : e + 1 - i = (pre ++ tgt :: pre2).length + 1 := by
            simp only [List.length_append, List.length_cons]
            omega
          rw [h1, h2, drop_pre_cons]
        rw [hdrop2]
        have hlen2 : post2.length < fuel := by
          simp only [List.length_append, List.length_cons] at hlen
          omega
        have htot2 : (e + 1) + post2.length = total := by
          simp only [List.length_append, List.length_cons] at htot
          omega
        rw [ih post2 tgt total (e + 1) hlen2 htot2]

theorem RangesOK_cons {p : Nat × Nat} {rest : List (Nat × Nat)}
    (hp : p.1 < p.2) (hrest : RangesOK rest)
    (hhd : ∀ q ∈ rest.head?, p.2 ≤ q.1) : RangesOK (p :: rest) := by
  cases rest with
  | nil => exact hp
  | cons q r => exact ⟨hp, hhd q rfl, hrest⟩

theorem runsAux_ok :
    ∀ (l : List Bool) (tgt : Bool) (i : Nat) (st : Option Nat),
    (∀ s ∈ st, s < i) →
    RangesOK (maximalRunsAux l tgt i st) ∧
    (∀ p ∈ (maximalRunsAux l tgt i st).head?,
      (match st with
       | none => i ≤ p.1 ∧ i ≤ p.2
       | some s => p.1 = s ∧ i ≤ p.2)) := by
  intro l
  induction l with
  | nil =>
    intro tgt i st hst
    cases st with
    | none => exact ⟨trivial, by simp [maximalRunsAux]⟩
    | some s =>
      refine ⟨hst s rfl, ?_⟩
      intro p hp
      simp only [maximalRunsAux, List.head?_cons, Option.mem_def,
        Option.some.injEq] at hp
      simp [← hp]
  | cons b r ih =>
    intro tgt i st hst
    cases st with
    | none =>
      by_cases hb : (b == tgt) = true
      · simp only [maximalRunsAux, hb, if_true]
        obtain ⟨hOK, hhd⟩ := ih tgt (i + 1) (some i) (by simp)
        refine ⟨hOK, ?_⟩
        intro p hp
        have := hhd p hp
        simp only at this
        exact ⟨by omega, by omega⟩
      · simp only [maximalRunsAux, hb, Bool.false_eq_true, if_false]
        obtain ⟨hOK, hhd⟩ := ih tgt (i + 1) none (by simp)
        refine ⟨hOK, ?_⟩
        intro p hp
        have := hhd p hp
        simp only at this
        exact ⟨by omega, by omega⟩
    | some s =>
      have hsi : s < i := hst s rfl
      by_cases hb : (b == tgt) = true
      · simp only [maximalRunsAux, hb, if_true]
        obtain ⟨hOK, hhd⟩ := ih tgt (i + 1) (some s) (by simp; omega)
        refine ⟨hOK, ?_⟩
        intro p hp
        have := hhd p hp
        simp only at this
        exact ⟨this.1, by omega⟩
      · simp only [maximalRunsAux, hb, Bool.false_eq_true, if_false]
        obtain ⟨hOK, hhd⟩ := ih tgt (i + 1) none (by simp)
        refine ⟨?_, ?_⟩
        · refine RangesOK_cons (by simpa using hsi) hOK ?_
          intro q hq
          have := hhd q hq
          simp only at this
          omega
        · intro p hp
          simp only [List.head?_cons, Option.mem_def, Option.some.injEq] at hp
          simp [← hp]

theorem runsAux_nonempty_some :
    ∀ (l : List Bool) (tgt : Bool) (i s : Nat),
    maximalRunsAux l tgt i (some s) ≠ [] := by
  intro l
  induction l with
  | nil => intro tgt i s h; cases h
  | cons b r ih =>
    intro tgt i s h
    rw [maximalRunsAux] at h
    by_cases hb : (b == tgt) = true
    · rw [if_pos hb] at h; exact ih tgt (i + 1) s h
    · rw [if_neg hb] at h; cases h

theorem runsAux_head_none :
    ∀ (l : List Bool) (tgt : Bool) (i : Nat),
    (maximalRunsAux l tgt i none).head?.map Prod.fst = nextFromAux l tgt i := by
  intro l
  induction l with
  | nil => intro tgt i; rfl
  | cons b r ih =>
    intro tgt i
    by_cases hb : (b == tgt) = true
    · simp only [maximalRunsAux, hb, if_true, nextFromAux]
      obtain ⟨hOK, hhd⟩ := runsAux_ok r tgt (i + 1) (some i) (by simp)
      cases hres : maximalRunsAux r tgt (i + 1) (some i) with
      | nil => exact absurd hres (runsAux_nonempty_some r tgt (i + 1) i)
      | cons p ps =>
        have := hhd p (by rw [hres]; rfl)
        simp only at this
        simp [this.1]
    · simp only [maximalRunsAux, hb, Bool.false_eq_true, if_false, nextFromAux]
      exact ih tgt (i + 1)

theorem lastOcc_lt_length {l : List Bool} {tgt : Bool} {k : Nat}
    (h : lastOcc l tgt = some k) : k < l.length := by
  induction l generalizing k with
  | nil => cases h
  | cons b r ih =>
    rw [lastOcc] at h
    cases hr : lastOcc r tgt with
    | some m =>
      rw [hr] at h
      cases h
      have := ih hr
      simp only [List.length_cons]
      omega
    | none =>
      rw [hr] at h
      by_cases hb : (b == tgt) = true
      · rw [if_pos hb] at h
        cases h
        simp
      · rw [if_neg hb] at h; cases h

theorem lastOcc_none {l : List Bool} {tgt : Bool} :
    lastOcc l tgt = none ↔ ∀ x ∈ l, x ≠ tgt := by
  induction l with
  | nil => simp [lastOcc]
  | cons b r ih =>
    rw [lastOcc]
    cases hr : lastOcc r tgt with
    | some m =>
      simp only [reduceCtorEq, false_iff, not_forall]
      have : ¬ (∀ x ∈ r, x ≠ tgt) := by
        rw [← ih]
        simp [hr]
      push_neg at this
      obtain ⟨x, hx, hxe⟩ := this
      exact ⟨x, List.mem_cons_of_mem _ hx, by simp [hxe]⟩
    | none =>
      by_cases hb : (b == tgt) = true
      · simp only [hb, if_true, reduceCtorEq, false_iff, not_forall]
        exact ⟨b, List.mem_cons_self b r, by simp [beq_iff_eq.mp hb]⟩
      · simp only [hb, Bool.false_eq_true, if_false, true_iff]
        intro x hx
        rcases List.mem_cons.mp hx with rfl | hx
        · exact fun hEq => hb (beq_iff_eq.mpr hEq)
        · exact (ih.mp hr) x hx

theorem nextFromAux_append (xs ys : List Bool) (tgt : Bool) :
    ∀ i : Nat, nextFromAux (xs ++ ys) tgt i =
      match nextFromAux xs tgt i with
      | some s => some s
      | none => nextFromAux ys tgt (i + xs.length) := by
  induction xs with
  | nil => intro i; simp [nextFromAux]
  | cons b r ih =>
    intro i
    by_cases hb : (b == tgt) = true
    · simp [nextFromAux, hb]
    · simp only [List.cons_append, nextFromAux, hb, Bool.false_eq_true, if_false]
      rw [show r.append ys = r ++ ys from rfl, ih (i + 1)]
      cases nextFromAux r tgt (i + 1) with
      | some s => rfl
      | none =>
        simp only [List.length_cons]
        congr 1
        omega

theorem nextFromAux_reverse (l : List Bool) (tgt : Bool) :
    nextFromAux l.reverse tgt 0 =
      (lastOcc l tgt).map (fun j => l.length - 1 - j) := by
  induction l with
  | nil => rfl
  | cons b r ih =>
    rw [List.reverse_cons, nextFromAux_append, ih]
    cases hr : lastOcc r tgt with
    | some k =>
      have hk := lastOcc_lt_length hr
      simp only [lastOcc, hr]
      show some (r.length - 1 - k) = some (r.length + 1 - 1 - (k + 1))
      congr 1
      omega
    | none =>
      simp only [Option.map_none, lastOcc, hr, List.length_reverse]
      by_cases hb : (b == tgt) = true
      · simp [nextFromAux, hb]
      · simp [nextFromAux, hb]

theorem runsAux_last_lastOcc :
    ∀ (l : List Bool) (tgt : Bool) (i : Nat) (st : Option Nat),
    (maximalRunsAux l tgt i st).getLast?.map Prod.snd =
      (match lastOcc l tgt, st with
       | some m, _ => some (i + m + 1)
       | none, some _ => some i
       | none, none => none) := by
  intro l
  induction l with
  | nil =>
    intro tgt i st
    cases st with
    | none => rfl
    | some s => rfl
  | cons b r ih =>
    intro tgt i st
    by_cases hb : (b == tgt) = true
    · have hswitch : ∀ j : Nat,
          (maximalRunsAux r tgt (i + 1) (some j)).getLast?.map Prod.snd =
          (match lastOcc (b :: r) tgt, st with
           | some m, _ => some (i + m + 1)
           | none, some _ => some i
           | none, none => none) := by
        intro j
        rw [ih tgt (i + 1) (some j)]
        cases hr : lastOcc r tgt with
        | some k =>
          simp only [lastOcc, hr]
          congr 1
          omega
        | none =>
          simp only [lastOcc, hr, hb, if_true]
      cases st with
      | none =>
        simp only [maximalRunsAux, hb, if_true]
        exact hswitch i
      | some s =>
        simp only [maximalRunsAux, hb, if_true]
        exact hswitch s
    · cases st with
      | none =>
        simp only [maximalRunsAux, hb, Bool.false_eq_true, if_false]
        rw [ih tgt (i + 1) none]
        cases hr : lastOcc r tgt with
        | some k =>
          simp only [lastOcc, hr]
          congr 1
          omega
        | none =>
          simp only [lastOcc, hr, hb, Bool.false_eq_true, if_false]
      | some s =>
        simp only [maximalRunsAux, hb, Bool.false_eq_true, if_false]
        cases hres : maximalRunsAux r tgt (i + 1) none with
        | nil =>
          have h2 := ih tgt (i + 1) none
          rw [hres] at h2
          cases hr : lastOcc r tgt with
          | some k =>
            rw [hr] at h2
            simp at h2
          | none =>
            simp only [lastOcc, hr, hb, Bool.false_eq_true, if_false]
            rfl
        | cons p ps =>
          rw [List.getLast?_cons_cons, ← hres, ih tgt (i + 1) none]
          cases hr : lastOcc r tgt with
          | some k =>
            simp only [lastOcc, hr]
            congr 1
            omega
          | none =>
            have h2 := ih tgt (i + 1) none
            rw [hres, hr] at h2
            simp at h2

theorem valsOf_length (t : Dense α) : (valsOf t).length = t.Size := by
  rw [valsOf, List.length_map]
  exact length_rowMajorCoords t.shape

theorem mem_rowMajorCoords_length {s : List Nat} {c : List Nat}
    (hc : c ∈ rowMajorCoords s) : c.length = s.length := by
  induction s generalizing c with
  | nil =>
    simp only [rowMajorCoords, List.mem_singleton] at hc
    simp [hc]
  | cons d rest ih =>
    simp only [rowMajorCoords, List.mem_flatMap, List.mem_map] at hc
    obtain ⟨i, _, c2, hc2, rfl⟩ := hc
    simp [ih hc2]

theorem slice_coord_size (t : Dense α) (axn : Nat) (coord : List Nat)
    (h : axn < t.shape.length) (hlen : coord.length = t.shape.length - 1) :
    (t.Slice (coordSlices t.shape axn coord)).Size = t.shape.getD axn 0 := by
  rw [Dense.Size, slice_coord_shape t axn coord h hlen]
  simp

theorem foldlS_snd (l : List (List Nat)) (axn : Nat) (fn : Dense α → β) :
    ∀ (acc : Dense β × Dense α),
    (l.foldl (fun (acc : Dense β × Dense α) c =>
      let sb := acc.2.SliceS (coordSlices acc.2.shape axn c)
      (acc.1.SetAt (fn sb.1) c, sb.2)) acc).2 = acc.2 := by
  induction l with
  | nil => intro acc; rfl
  | cons x xs ih => intro acc; exact ih _

theorem maskedReduceS_snd [Inhabited β] (t : Dense α) (fn : Dense α → β)
    (axis : List Int) : (MaskedReduceS t fn axis).2 = t := by
  match axis with
  | [] => rfl
  | ax :: rest =>
    rw [MaskedReduceS]
    by_cases hv : t.IsVector
    · rw [if_pos hv]
    · rw [if_neg hv]
      by_cases hge : (t.Dims : Int) ≤ ax
      · rw [if_pos hge]
      · rw [if_neg hge]
        by_cases hneg : ax < 0
        · rw [if_pos hneg]
        · rw [if_neg hneg]
          exact foldlS_snd _ _ _ _

theorem flatNM_eq_runs (t : Dense α) :
    t.FlatNotMaskedContiguous = maximalRuns (valsOf t) true := by
  rw [Dense.FlatNotMaskedContiguous, maximalRuns]
  exact contigAux_eq_runs ((valsOf t).length + 1) (valsOf t) true t.Size 0
    (Nat.lt_succ_self _) (by rw [Nat.zero_add, valsOf_length])

theorem flatM_eq_runs (t : Dense α) :
    t.FlatMaskedContiguous = maximalRuns (valsOf t) false := by
  rw [Dense.FlatMaskedContiguous, maximalRuns]
  exact contigAux_eq_runs ((valsOf t).length + 1) (valsOf t) false t.Size 0
    (Nat.lt_succ_self _) (by rw [Nat.zero_add, valsOf_length])

theorem getLast?_lastOcc {l : List Bool} {tgt : Bool}
    (h : l.getLast? = some tgt) : lastOcc l tgt = some (l.length - 1) := by
  induction l with
  | nil => cases h
  | cons b r ih =>
    cases r with
    | nil =>
      simp only [List.getLast?_singleton, Option.some.injEq] at h
      simp [lastOcc, h]
    | cons c cr =>
      rw [List.getLast?_cons_cons] at h
      have := ih h
      rw [lastOcc, this]
      simp

theorem any_exists_lastOcc {l : List Bool} {tgt : Bool}
    (h : l.any (· == tgt) = true) : ∃ m, lastOcc l tgt = some m := by
  cases ho : lastOcc l tgt with
  | some m => exact ⟨m, rfl⟩
  | none =>
    exfalso
    rw [List.any_eq_true] at h
    obtain ⟨x, hx, hxe⟩ := h
    exact (lastOcc_none.mp ho) x hx (beq_iff_eq.mp hxe)

theorem edges_consistent (vals : List Bool) (tgt : Bool)
    (hany : vals.any (· == tgt) = true) :
    ∃ p q : Nat × Nat, (maximalRuns vals tgt).head? = some p ∧
      (maximalRuns vals tgt).getLast? = some q ∧
      fwdIdx vals tgt = (p.1 : Int) ∧ revIdx vals tgt = (q.2 : Int) - 1 := by
  obtain ⟨m, hm⟩ := any_exists_lastOcc hany
  have hmlt := lastOcc_lt_length hm
  have hnv : ∃ s, nextFromAux vals tgt 0 = some s := by
    cases hn : nextFromAux vals tgt 0 with
    | some s => exact ⟨s, rfl⟩
    | none =>
      exfalso
      rw [List.any_eq_true] at hany
      obtain ⟨x, hx, hxe⟩ := hany
      exact (nextFromAux_none.mp hn) x hx (beq_iff_eq.mp hxe)
  obtain ⟨s, hs⟩ := hnv
  have hhead := runsAux_head_none vals tgt 0
  rw [hs] at hhead
  obtain ⟨p, hp, hp1⟩ := Option.map_eq_some'.mp hhead
  have hlast := runsAux_last_lastOcc vals tgt 0 none
  rw [hm] at hlast
  obtain ⟨q, hq, hq2⟩ := Option.map_eq_some'.mp hlast
  refine ⟨p, q, hp, hq, ?_, ?_⟩
  · rw [fwdIdx, hs, hp1]
  · rw [revIdx, nextFromAux_reverse, hm]
    simp only [Option.map_some']
    have : q.2 = m + 1 := by omega
    rw [this]
    push_cast
    omega

/-- C1: on the axis-wise path with a valid axis, `MaskedReduce` returns a
tensor whose shape is the input shape with the reduction axis removed and
whose element at every output coordinate is `fn` applied to the sub-tensor
sliced with the whole reduction axis and the single-index range of the
output coordinate on every other axis. -/
theorem claim_C1 {α β : Type} [Inhabited β] (t : Dense α) (fn : Dense α → β)
    (ax : Int) (hnv : t.IsVector = false) (h0 : 0 ≤ ax)
    (hlt : ax < (t.Dims : Int)) :
    ∃ out : Dense β, MaskedReduce t fn [ax] = .arr out ∧
      out.shape = t.shape.eraseIdx ax.toNat ∧
      ∀ c ∈ rowMajorCoords out.shape,
        out.getAt c = fn (t.Slice (coordSlices t.shape ax.toNat c)) := by
  refine ⟨mrOut t fn ax.toNat, maskedReduce_eq_arr t fn ax hnv h0 hlt,
    mrOut_shape t fn ax.toNat, ?_⟩
  intro c hc
  rw [mrOut_shape] at hc
  exact mrOut_getAt t fn ax.toNat c hc

theorem claim_C1_witness :
    exContig.IsVector = false ∧
    ∃ out : Dense Nat, MaskedReduce exContig doMaskCt [1] = .arr out ∧
      out.shape = exContig.shape.eraseIdx (1 : Int).toNat ∧
      ∀ c ∈ rowMajorCoords out.shape,
        out.getAt c = doMaskCt (exContig.Slice (coordSlices exContig.shape (1 : Int).toNat c)) :=
  ⟨by decide, claim_C1 exContig doMaskCt 1 (by decide) (by decide) (by decide)⟩

theorem mem_eraseIdx_coords_length {s : List Nat} {axn : Nat} {c : List Nat}
    (h : axn < s.length) (hc : c ∈ rowMajorCoords (s.eraseIdx axn)) :
    c.length = s.length - 1 := by
  rw [mem_rowMajorCoords_length hc, List.length_eraseIdx]
  simp [h]

/-- C2 (corrected): with a row-vector receiver and an explicit valid axis the
two counts are scalars over the whole tensor, summing to 12, not to the
reduced axis length 1. -/
theorem claim_C2_counterexample :
    exVec.MaskedCount [0] = .scalar 6 ∧ exVec.NonMaskedCount [0] = .scalar 6 ∧
    exVec.shape.getD 0 0 = 1 ∧ (6 : Nat) + 6 ≠ 1 := by decide

/-- C2 (amended): on the axis-wise path the masked and non-masked counts sum
elementwise to the reduced axis length; on the scalar path (no axis, or a
vector receiver with an axis) the two scalar counts sum to the total size. -/
theorem claim_C2 {α : Type} (t : Dense α) (ax : Int) :
    (t.IsVector = false → 0 ≤ ax → ax < (t.Dims : Int) →
      ∃ mo no : Dense Nat, t.MaskedCount [ax] = .arr mo ∧
        t.NonMaskedCount [ax] = .arr no ∧
        mo.shape = t.shape.eraseIdx ax.toNat ∧
        no.shape = t.shape.eraseIdx ax.toNat ∧
        ∀ c ∈ rowMajorCoords (t.shape.eraseIdx ax.toNat),
          mo.getAt c + no.getAt c = t.shape.getD ax.toNat 0) ∧
    (∃ m n : Nat, t.MaskedCount [] = .scalar m ∧
      t.NonMaskedCount [] = .scalar n ∧ m + n = t.Size) ∧
    (t.IsVector = true →
      ∃ m n : Nat, t.MaskedCount [ax] = .scalar m ∧
        t.NonMaskedCount [ax] = .scalar n ∧ m + n = t.Size) := by
  refine ⟨?_, ?_, ?_⟩
  · intro hnv h0 hlt
    have haxn : ax.toNat < t.shape.length := by
      have h1 : (ax.toNat : Int) = ax := Int.toNat_of_nonneg h0
      have : (ax.toNat : Int) < (t.Dims : Int) := by rw [h1]; exact hlt
      exact_mod_cast this
    refine ⟨mrOut t doMaskCt ax.toNat, mrOut t doNonMaskCt ax.toNat,
      maskedReduce_eq_arr t doMaskCt ax hnv h0 hlt,
      maskedReduce_eq_arr t doNonMaskCt ax hnv h0 hlt,
      mrOut_shape t doMaskCt ax.toNat, mrOut_shape t doNonMaskCt ax.toNat, ?_⟩
    intro c hc
    rw [mrOut_getAt t doMaskCt ax.toNat c hc,
      mrOut_getAt t doNonMaskCt ax.toNat c hc,
      ct_add_nonMaskCt (t.Slice (coordSlices t.shape ax.toNat c))]
    exact slice_coord_size t ax.toNat c haxn (mem_eraseIdx_coords_length haxn hc)
  · exact ⟨doMaskCt t, doNonMaskCt t, rfl, rfl, ct_add_nonMaskCt t⟩
  · intro hv
    refine ⟨doMaskCt t, doNonMaskCt t, ?_, ?_, ct_add_nonMaskCt t⟩
    · rw [Dense.MaskedCount, MaskedReduce, hv]; rfl
    · rw [Dense.NonMaskedCount, MaskedReduce, hv]; rfl

theorem claim_C2_witness :
    ∃ mo no : Dense Nat, exContig.MaskedCount [0] = .arr mo ∧
      exContig.NonMaskedCount [0] = .arr no ∧
      mo.shape = exContig.shape.eraseIdx (0 : Int).toNat ∧
      no.shape = exContig.shape.eraseIdx (0 : Int).toNat ∧
      ∀ c ∈ rowMajorCoords (exContig.shape.eraseIdx (0 : Int).toNat),
        mo.getAt c + no.getAt c = exContig.shape.getD (0 : Int).toNat 0 :=
  (claim_C2 exContig 0).1 (by decide) (by decide) (by decide)

/-- C3 (corrected), two failures of the original claim.  First, on a
fully-masked row vector with an explicit valid axis, `MaskedAll` is the
scalar `true` while `MaskedCount` is the scalar 12, which differs from the
reduced axis length 1.  Second, even on the axis-wise path the `MaskedAll`
equivalence fails when the reduced axis has length 0: on the non-vector
`(2,0)` tensor with valid axis 1, every output entry of `MaskedAll(1)` is
`false` although the corresponding `MaskedCount(1)` entry, 0, equals the
reduced axis length. -/
theorem claim_C3_counterexample :
    (exVecFull.MaskedAll [0] = .scalar true ∧
      exVecFull.MaskedCount [0] = .scalar 12 ∧
      exVecFull.shape.getD 0 0 = 1 ∧ (12 : Nat) ≠ 1) ∧
    (exZeroAx.IsVector = false ∧ (1 : Int) < (exZeroAx.Dims : Int) ∧
      exZeroAx.MaskedAll [1] =
        .arr { shape := [2], strides := [1], data := [false, false],
               maskStrides := [], mask := [], isView := false } ∧
      exZeroAx.MaskedCount [1] =
        .arr { shape := [2], strides := [1], data := [0, 0],
               maskStrides := [], mask := [], isView := false } ∧
      exZeroAx.shape.getD 1 0 = 0) := by decide

/-- C3 (amended): on the axis-wise path, with a positive reduced-axis length,
`MaskedAny` is true at an output coordinate iff `MaskedCount` there is
positive, and `MaskedAll` is true iff `MaskedCount` equals the reduced axis
length. -/
theorem claim_C3 {α : Type} (t : Dense α) (ax : Int)
    (hnv : t.IsVector = false) (h0 : 0 ≤ ax) (hlt : ax < (t.Dims : Int))
    (hpos : 0 < t.shape.getD ax.toNat 0) :
    ∃ (ao alo : Dense Bool) (co : Dense Nat),
      t.MaskedAny [ax] = .arr ao ∧ t.MaskedAll [ax] = .arr alo ∧
      t.MaskedCount [ax] = .arr co ∧
      ∀ c ∈ rowMajorCoords (t.shape.eraseIdx ax.toNat),
        (ao.getAt c = true ↔ 0 < co.getAt c) ∧
        (alo.getAt c = true ↔ co.getAt c = t.shape.getD ax.toNat 0) := by
  have haxn : ax.toNat < t.shape.length := by
    have h1 : (ax.toNat : Int) = ax := Int.toNat_of_nonneg h0
    have : (ax.toNat : Int) < (t.Dims : Int) := by rw [h1]; exact hlt
    exact_mod_cast this
  refine ⟨mrOut t doMaskAny ax.toNat, mrOut t doMaskAll ax.toNat,
    mrOut t doMaskCt ax.toNat,
    maskedReduce_eq_arr t doMaskAny ax hnv h0 hlt,
    maskedReduce_eq_arr t doMaskAll ax hnv h0 hlt,
    maskedReduce_eq_arr t doMaskCt ax hnv h0 hlt, ?_⟩
  intro c hc
  have hsz := slice_coord_size t ax.toNat c haxn (mem_eraseIdx_coords_length haxn hc)
  rw [mrOut_getAt t doMaskAny ax.toNat c hc,
    mrOut_getAt t doMaskAll ax.toNat c hc,
    mrOut_getAt t doMaskCt ax.toNat c hc]
  constructor
  · exact any_iff_ct_pos _
  · rw [← hsz]
    exact all_iff_ct_size _ (by rw [hsz]; exact hpos)

theorem claim_C3_witness :
    ∃ (ao alo : Dense Bool) (co : Dense Nat),
      exContig.MaskedAny [2] = .arr ao ∧ exContig.MaskedAll [2] = .arr alo ∧
      exContig.MaskedCount [2] = .arr co ∧
      ∀ c ∈ rowMajorCoords (exContig.shape.eraseIdx (2 : Int).toNat),
        (ao.getAt c = true ↔ 0 < co.getAt c) ∧
        (alo.getAt c = true ↔ co.getAt c = exContig.shape.getD (2 : Int).toNat 0) :=
  claim_C3 exContig 2 (by decide) (by decide) (by decide) (by decide)

/-- C4 (corrected): a negative axis is not validated and does not produce the
`-1` sentinel; it reaches the out-of-range slice write and crashes. -/
theorem claim_C4_counterexample :
    MaskedReduce exSquare doMaskCt [(-1 : Int)] = .crash ∧
    MaskedReduce exSquare doMaskCt [(-1 : Int)] ≠ .neg1 := by decide

/-- C4 (amended): on the axis-wise path, an axis at or above the rank yields
the sentinel `-1`; a negative axis crashes (a Go runtime panic) instead of
returning the sentinel; a valid axis yields an output tensor of the correct
shape, never a silently wrong one. -/
theorem claim_C4 {α β : Type} [Inhabited β] (t : Dense α) (fn : Dense α → β)
    (ax : Int) (hnv : t.IsVector = false) :
    ((t.Dims : Int) ≤ ax → MaskedReduce t fn [ax] = .neg1) ∧
    (ax < 0 → MaskedReduce t fn [ax] = .crash) ∧
    (0 ≤ ax → ax < (t.Dims : Int) →
      ∃ out, MaskedReduce t fn [ax] = .arr out ∧
        out.shape = t.shape.eraseIdx ax.toNat) := by
  refine ⟨?_, ?_, ?_⟩
  · intro h
    rw [MaskedReduce, hnv]
    simp [h]
  · intro h
    have h2 : ¬ ((t.Dims : Int) ≤ ax) := by
      have : (0 : Int) ≤ (t.Dims : Int) := Int.ofNat_nonneg _
      omega
    rw [MaskedReduce, hnv]
    simp [h, h2]
  · intro h0 hlt
    exact ⟨mrOut t fn ax.toNat, maskedReduce_eq_arr t fn ax hnv h0 hlt,
      mrOut_shape t fn ax.toNat⟩

theorem claim_C4_witness :
    MaskedReduce exSquare doMaskCt [(5 : Int)] = .neg1 ∧
    MaskedReduce exSquare doMaskCt [(-3 : Int)] = .crash ∧
    ∃ out, MaskedReduce exSquare doMaskCt [(1 : Int)] = .arr out ∧
      out.shape = exSquare.shape.eraseIdx (1 : Int).toNat :=
  ⟨(claim_C4 exSquare doMaskCt 5 (by decide)).1 (by decide),
   (claim_C4 exSquare doMaskCt (-3) (by decide)).2.1 (by decide),
   (claim_C4 exSquare doMaskCt 1 (by decide)).2.2 (by decide) (by decide)⟩

/-- C5 (corrected): a row vector has rank 2, yet with a valid axis the result
is still a scalar, because the scalar path triggers on vectors, not only on
rank-1 tensors. -/
theorem claim_C5_counterexample :
    exVec.Dims = 2 ∧ (0 : Int) < (exVec.Dims : Int) ∧
    exVec.MaskedAny [0] = .scalar true := by decide

/-- C5 (amended): `MaskedReduce` returns a scalar exactly when no axis is
given or the receiver is a vector (rank 1, or rank 2 with a singleton
dimension); a non-vector receiver with a valid axis yields an axis-wise
output tensor. -/
theorem claim_C5 {α β : Type} [Inhabited β] (t : Dense α) (fn : Dense α → β)
    (axis : List Int) :
    ((∃ v, MaskedReduce t fn axis = .scalar v) ↔
      (axis = [] ∨ t.IsVector = true)) ∧
    (∀ ax rest, axis = ax :: rest → t.IsVector = false → 0 ≤ ax →
      ax < (t.Dims : Int) → ∃ out, MaskedReduce t fn axis = .arr out) := by
  constructor
  · cases axis with
    | nil => simp [MaskedReduce]
    | cons ax rest =>
      constructor
      · rintro ⟨v, hv⟩
        by_cases hvec : t.IsVector = true
        · exact Or.inr hvec
        · exfalso
          rw [MaskedReduce] at hv
          rw [Bool.not_eq_true] at hvec
          rw [hvec] at hv
          simp only [Bool.false_eq_true, if_false] at hv
          by_cases h1 : (t.Dims : Int) ≤ ax
          · rw [if_pos h1] at hv; cases hv
          · rw [if_neg h1] at hv
            by_cases h2 : ax < 0
            · rw [if_pos h2] at hv; cases hv
            · rw [if_neg h2] at hv; cases hv
      · rintro (h | h)
        · cases h
        · exact ⟨fn t, by rw [MaskedReduce, h]; rfl⟩
  · rintro ax rest rfl hnv h0 hlt
    exact ⟨mrOut t fn ax.toNat,
      maskedReduce_eq_arr t fn ax hnv h0 hlt⟩

theorem claim_C5_witness :
    ((∃ v, MaskedReduce exContig doMaskCt [(0 : Int)] = .scalar v) ↔
      ([(0 : Int)] = [] ∨ exContig.IsVector = true)) ∧
    (∃ out, MaskedReduce exContig doMaskCt [(0 : Int)] = .arr out) :=
  ⟨(claim_C5 exContig doMaskCt [0]).1,
   (claim_C5 exContig doMaskCt [0]).2 0 [] rfl (by decide) (by decide) (by decide)⟩

/-- C6: both contiguous-region finders return exactly the maximal runs of the
requested validity over the flattened tensor, as sorted non-overlapping
half-open ranges; when the final run extends to the end of the tensor the
last range's end equals the total size. -/
theorem claim_C6 {α : Type} (t : Dense α) :
    t.FlatNotMaskedContiguous = maximalRuns (valsOf t) true ∧
    t.FlatMaskedContiguous = maximalRuns (valsOf t) false ∧
    RangesOK t.FlatNotMaskedContiguous ∧
    RangesOK t.FlatMaskedContiguous ∧
    ((valsOf t).getLast? = some true →
      t.FlatNotMaskedContiguous.getLast?.map Prod.snd = some t.Size) ∧
    ((valsOf t).getLast? = some false →
      t.FlatMaskedContiguous.getLast?.map Prod.snd = some t.Size) := by
  have hlastSz : ∀ tgt : Bool, (valsOf t).getLast? = some tgt →
      (maximalRuns (valsOf t) tgt).getLast?.map Prod.snd = some t.Size := by
    intro tgt hlast
    have hocc := getLast?_lastOcc hlast
    have h := runsAux_last_lastOcc (valsOf t) tgt 0 none
    rw [hocc] at h
    dsimp only at h
    rw [maximalRuns, h]
    have hne : (valsOf t).length ≠ 0 := by
      intro h0
      rw [List.length_eq_zero] at h0
      rw [h0] at hlast
      cases hlast
    rw [← valsOf_length t]
    congr 1
    omega
  refine ⟨flatNM_eq_runs t, flatM_eq_runs t, ?_, ?_, ?_, ?_⟩
  · rw [flatNM_eq_runs t]
    exact (runsAux_ok (valsOf t) true 0 none (by simp)).1
  · rw [flatM_eq_runs t]
    exact (runsAux_ok (valsOf t) false 0 none (by simp)).1
  · intro h
    rw [flatNM_eq_runs t]
    exact hlastSz true h
  · intro h
    rw [flatM_eq_runs t]
    exact hlastSz false h

theorem claim_C6_witness :
    exRuns.FlatNotMaskedContiguous = maximalRuns (valsOf exRuns) true ∧
    RangesOK exRuns.FlatNotMaskedContiguous ∧
    exRuns.FlatNotMaskedContiguous.getLast?.map Prod.snd = some exRuns.Size ∧
    exRuns2.FlatMaskedContiguous.getLast?.map Prod.snd = some exRuns2.Size :=
  ⟨(claim_C6 exRuns).1, (claim_C6 exRuns).2.2.1,
   (claim_C6 exRuns).2.2.2.2.1 (by decide),
   (claim_C6 exRuns2).2.2.2.2.2 (by decide)⟩

/-- C7: with no mask buffer both edge finders return `(0, Size-1)`; on a
masked tensor in which the requested validity occurs, the edges are exactly
the first range's start and the last range's end minus one of the matching
contiguous-region finder. -/
theorem claim_C7 {α : Type} (t : Dense α) :
    (t.IsMasked = false →
      t.FlatNotMaskedEdges = (0, (t.Size : Int) - 1) ∧
      t.FlatMaskedEdges = (0, (t.Size : Int) - 1)) ∧
    (t.IsMasked = true → (valsOf t).any (· == true) = true →
      ∃ p q : Nat × Nat, t.FlatNotMaskedContiguous.head? = some p ∧
        t.FlatNotMaskedContiguous.getLast? = some q ∧
        t.FlatNotMaskedEdges = ((p.1 : Int), (q.2 : Int) - 1)) ∧
    (t.IsMasked = true → (valsOf t).any (· == false) = true →
      ∃ p q : Nat × Nat, t.FlatMaskedContiguous.head? = some p ∧
        t.FlatMaskedContiguous.getLast? = some q ∧
        t.FlatMaskedEdges = ((p.1 : Int), (q.2 : Int) - 1)) := by
  refine ⟨?_, ?_, ?_⟩
  · intro hm
    constructor
    · rw [Dense.FlatNotMaskedEdges, hm]; rfl
    · rw [Dense.FlatMaskedEdges, hm]; rfl
  · intro hm hany
    obtain ⟨p, q, hp, hq, hf, hr⟩ := edges_consistent (valsOf t) true hany
    refine ⟨p, q, ?_, ?_, ?_⟩
    · rw [flatNM_eq_runs t]; exact hp
    · rw [flatNM_eq_runs t]; exact hq
    · rw [Dense.FlatNotMaskedEdges, hm, hf, hr]; rfl
  · intro hm hany
    obtain ⟨p, q, hp, hq, hf, hr⟩ := edges_consistent (valsOf t) false hany
    refine ⟨p, q, ?_, ?_, ?_⟩
    · rw [flatM_eq_runs t]; exact hp
    · rw [flatM_eq_runs t]; exact hq
    · rw [Dense.FlatMaskedEdges, hm, hf, hr]; rfl

theorem claim_C7_witness :
    (exNoMask.FlatNotMaskedEdges = (0, (exNoMask.Size : Int) - 1) ∧
      exNoMask.FlatMaskedEdges = (0, (exNoMask.Size : Int) - 1)) ∧
    (∃ p q : Nat × Nat, exRuns.FlatNotMaskedContiguous.head? = some p ∧
      exRuns.FlatNotMaskedContiguous.getLast? = some q ∧
      exRuns.FlatNotMaskedEdges = ((p.1 : Int), (q.2 : Int) - 1)) ∧
    (∃ p q : Nat × Nat, exRuns.FlatMaskedContiguous.head? = some p ∧
      exRuns.FlatMaskedContiguous.getLast? = some q ∧
      exRuns.FlatMaskedEdges = ((p.1 : Int), (q.2 : Int) - 1)) :=
  ⟨(claim_C7 exNoMask).1 (by decide),
   (claim_C7 exRuns).2.1 (by decide) (by decide),
   (claim_C7 exRuns).2.2 (by decide) (by decide)⟩

/-- C8 (corrected): the sanity check exempts rank-0 results, so reshaping a
non-view tensor to the empty dimension list succeeds even though the scalar
element count 1 differs from the data length 2. -/
theorem claim_C8_counterexample :
    exRe.isView = false ∧ ([] : List Nat).prod ≠ exRe.data.length ∧
    exRe.Reshape [] = (none, { exRe with shape := [], strides := [] }) := by decide

/-- C8 (amended): reshaping a view fails with the unsupported-on-view error
and leaves the tensor unchanged; reshaping a non-view tensor reassigns the
shape and fails its validation exactly when the new element count differs
from the data length and the new shape is not rank 0 (the scalar case, which
`sanity` exempts). -/
theorem claim_C8 {α : Type} (t : Dense α) (dims : List Nat) :
    (t.isView = true → t.Reshape dims = (some .unsupportedOnView, t)) ∧
    (t.isView = false →
      (t.Reshape dims).2.shape = dims ∧
      ((t.Reshape dims).1 = some .shapeMismatch ↔
        (t.data.length ≠ dims.prod ∧ dims ≠ []))) := by
  constructor
  · intro hv
    rw [Dense.Reshape, hv]
    rfl
  · intro hv
    rw [Dense.Reshape, hv]
    simp only [Bool.false_eq_true, if_false]
    constructor
    · rfl
    · rw [Dense.reshape]
      simp only [Dense.sanity, Dense.IsScalar, Dense.Size, hv]
      by_cases h1 : t.data.length = dims.prod
      · simp [h1]
      · by_cases h2 : dims = []
        · subst h2
          simp [h1]
        · have h3 : dims.isEmpty = false := by
            cases dims with
            | nil => exact absurd rfl h2
            | cons a as => rfl
          simp [h1, h2, h3, bne_iff_ne]

theorem claim_C8_witness :
    ({ exRe with isView := true }.Reshape [4] =
      (some .unsupportedOnView, { exRe with isView := true })) ∧
    ((exRe.Reshape [2, 1]).2.shape = [2, 1] ∧
      ¬ (exRe.Reshape [2, 1]).1 = some .shapeMismatch) ∧
    ((exRe.Reshape [3]).1 = some .shapeMismatch) :=
  ⟨(claim_C8 { exRe with isView := true } [4]).1 (by decide),
   ⟨((claim_C8 exRe [2, 1]).2 (by decide)).1,
    fun h => by
      have := (((claim_C8 exRe [2, 1]).2 (by decide)).2.mp h).1
      exact this (by decide)⟩,
   ((claim_C8 exRe [3]).2 (by decide)).2.mpr ⟨by decide, by decide⟩⟩

/-- C9: `MaskedReduce` and the four inspection wrappers use only the first
axis argument; any further axes are ignored. -/
theorem claim_C9 {α β : Type} [Inhabited β] (t : Dense α) (fn : Dense α → β)
    (ax : Int) (rest : List Int) :
    MaskedReduce t fn (ax :: rest) = MaskedReduce t fn [ax] ∧
    t.MaskedAny (ax :: rest) = t.MaskedAny [ax] ∧
    t.MaskedAll (ax :: rest) = t.MaskedAll [ax] ∧
    t.MaskedCount (ax :: rest) = t.MaskedCount [ax] ∧
    t.NonMaskedCount (ax :: rest) = t.NonMaskedCount [ax] :=
  ⟨rfl, rfl, rfl, rfl, rfl⟩

/-- C10: every inspection operation leaves the receiver exactly as it was:
the state-threaded versions return the original receiver, hence its data
buffer, mask buffer, shape and strides are unchanged. -/
theorem claim_C10 {α : Type} (t : Dense α) (axis : List Int) :
    (t.MaskedAnyS axis).2 = t ∧ (t.MaskedAllS axis).2 = t ∧
    (t.MaskedCountS axis).2 = t ∧ (t.NonMaskedCountS axis).2 = t ∧
    t.FlatNotMaskedContiguousS.2 = t ∧ t.FlatMaskedContiguousS.2 = t ∧
    t.FlatNotMaskedEdgesS.2 = t ∧ t.FlatMaskedEdgesS.2 = t :=
  ⟨maskedReduceS_snd t doMaskAny axis, maskedReduceS_snd t doMaskAll axis,
   maskedReduceS_snd t doMaskCt axis, maskedReduceS_snd t doNonMaskCt axis,
   rfl, rfl, rfl, rfl⟩

end Gorgonia
